import Mathlib

/-!
Verification of the hoverboard toolchain manager against its specification.

The development shallowly embeds the parts of the code the claims are about:

* `src/hoverboard/types/hierarchy_mapping.py` — the `HierarchyMapping`
  nested key/value structure with dotted-path access (`HMap`, `getItem`,
  `containsItem`, `setItem`);
* `src/hoverboard/tools/arguments.py` — the command-line templating engine
  (`Arg`, `ArgumentList`, `compile`, `copy`), with the Python object heap of
  `NamedArgument` cells made explicit so that object sharing is observable;
* `src/hoverboard/toolchains/installation_database.py` — the installation
  database state machine (`install`, `uninstall`) over an abstract world of
  filesystem/collaborator outcomes;
* `src/hoverboard/toolchains/store.py` — the process-wide toolchain/tool
  registry (`getTool`).

Dotted-path resolution goes through Python `getattr`, whose ordinary
attribute namespace (class methods such as `copy`, dunders such as
`__class__`) is consulted before the `__getattr__` fallback into the
mapping data; the ambient attribute tables are an abstract environment
(`PyWorld`), with the data-only walk as their attribute-free special case.
Error kinds follow the specification's taxonomy (`Err`); each Lean
constructor marks the raise site of one Python exception.
-/

namespace Hoverboard

/-- Scalar leaf values a metadata mapping can store (string / number / bool). -/
inductive PVal
  | s (v : String)
  | i (v : Int)
  | b (v : Bool)
deriving DecidableEq, Repr

mutual
/-- A value stored in a `HierarchyMapping`: either a scalar leaf or a nested
mapping (`HierarchyMapping` instances are the only nested values after
`__setattr__`'s Mapping conversion). -/
inductive HVal
  | leaf (v : PVal)
  | node (m : HMap)
deriving DecidableEq, Repr

/-- The `_data` dict of a `HierarchyMapping`: an insertion-ordered list of
key/value entries. -/
inductive HMap
  | nil
  | cons (k : String) (v : HVal) (rest : HMap)
deriving DecidableEq, Repr
end

/-- Error kinds of the specification's taxonomy (section 7 of the spec). -/
inductive Err
  | keyNotFound
  | invalidPath
  | missingField
  | decompressionFailed
  | unknownType
  | unresolvedArgument
  | notFound
deriving DecidableEq, Repr

/-- One character of `key.replace('-', '_')`. -/
def normChar (c : Char) : Char := if c = '-' then '_' else c

/-- `key.replace('-', '_')`, as applied by `HierarchyMapping.__getitem__`,
`__setitem__` and `__delitem__`. -/
def normalize (s : String) : String := ⟨s.data.map normChar⟩

/-- `path.split('.')` on the character list: splits on `'.'`, keeping empty
segments, never returning an empty list. -/
def splitList : List Char → List (List Char)
  | [] => [[]]
  | c :: rest =>
    match splitList rest with
    | [] => [[]]
    | h :: t => if c = '.' then [] :: h :: t else (c :: h) :: t

/-- Dotted-path segmentation.  `find_parent` peels one `split('.', 1)` at a
time, which is equivalent to splitting the whole path on `'.'`. -/
def splitSegs (s : String) : List String := (splitList s.data).map (fun l => ⟨l⟩)

/-- Python dict lookup on the `_data` entries (`HierarchyMapping.__getattr__`,
returning `none` where the code raises `AttributeError`). -/
def hmLookup : HMap → String → Option HVal
  | .nil, _ => none
  | .cons k v rest, key => if k = key then some v else hmLookup rest key

/-- Python dict assignment `_data[key] = v`: replaces in place when the key is
present, otherwise appends (insertion order preserved). -/
def hmSet : HMap → String → HVal → HMap
  | .nil, key, v => .cons key v .nil
  | .cons k v' rest, key, v =>
    if k = key then .cons k v rest else .cons k v' (hmSet rest key v)

/-- Whether a key is present at the top level (`item in self._data`). -/
def hmHasKey (m : HMap) (key : String) : Bool := (hmLookup m key).isSome

/-- The data-only core of the `get_value_at`/`find_parent` walk: at every
step only the `__getattr__` fallback (`self._data[item]`) fires, a missing
key or a descent into a scalar raising `AttributeError` (`__getitem__`
converts it to `KeyError`).  The full `getattr` semantics — ordinary
attribute lookup consulted before `__getattr__` — is `getPathW` below;
this walk is its specialization to segments that name no Python
attribute. -/
def getPath : HMap → List String → Except Err HVal
  | _, [] => .error .keyNotFound
  | m, [k] =>
    match hmLookup m k with
    | some v => .ok v
    | none => .error .keyNotFound
  | m, k :: rest =>
    match hmLookup m k with
    | some (.node m') => getPath m' rest
    | _ => .error .keyNotFound

/-- `HierarchyMapping.__contains__`: splits one segment at a time, descends
only through `HierarchyMapping` members, and never raises.  Note: unlike
`__getitem__`, it does not normalize hyphens. -/
def containsPath : HMap → List String → Bool
  | _, [] => false
  | m, [k] => hmHasKey m k
  | m, k :: rest =>
    match hmLookup m k with
    | some (.node m') => containsPath m' rest
    | _ => false

/-- `HierarchyMapping.__setitem__` on pre-split segments: assign at the last
segment; create missing intermediate maps; descending through an existing
non-map member raises (`InvalidPath` kind). -/
def setPath : HMap → List String → HVal → Except Err HMap
  | _, [], _ => .error .invalidPath
  | m, [k], v => .ok (hmSet m k v)
  | m, k :: rest, v =>
    match hmLookup m k with
    | some (.node m') => (setPath m' rest v).map (fun m'' => hmSet m k (.node m''))
    | some (.leaf _) => .error .invalidPath
    | none => (setPath .nil rest v).map (fun m'' => hmSet m k (.node m''))

/-- `HierarchyMapping.__getitem__` restricted to data resolution: hyphens
normalized, then the data-only walk.  It agrees with the full
attribute-aware `getItemW` whenever no walked segment names a Python
attribute (`getPathW_eq_getPath`); a path such as `copy` or
`a.__class__` resolves differently in the full semantics. -/
def getItem (m : HMap) (key : String) : Except Err HVal :=
  getPath m (splitSegs (normalize key))

/-- `HierarchyMapping.__contains__`: no hyphen normalization. -/
def containsItem (m : HMap) (key : String) : Bool :=
  containsPath m (splitSegs key)

/-- `HierarchyMapping.__setitem__`: hyphens normalized, then path assignment
with intermediate-map creation. -/
def setItem (m : HMap) (key : String) (v : HVal) : Except Err HMap :=
  setPath m (splitSegs (normalize key)) v

/-- The specification's notion of dotted-path resolution (section 3 of the
spec): every segment present, descending only through nested maps, the value
stored at the last segment. -/
inductive Resolves : HMap → List String → HVal → Prop
  | last {m : HMap} {k : String} {v : HVal} :
      hmLookup m k = some v → Resolves m [k] v
  | step {m m' : HMap} {k : String} {rest : List String} {v : HVal} :
      hmLookup m k = some (.node m') → Resolves m' rest v →
      Resolves m (k :: rest) v

mutual
/-- A plain nested-map value: the on-disk JSON shape used by
`installations.json`. -/
inductive Plain
  | leaf (v : PVal)
  | obj (fields : PFields)
deriving DecidableEq, Repr

/-- The fields of a plain JSON object, in order. -/
inductive PFields
  | nil
  | cons (k : String) (p : Plain) (rest : PFields)
deriving DecidableEq, Repr
end

mutual
/-- Modelled from the spec: `HierarchyMapping.serialize` is called by
`InstallationDatabase._dump_db` but its definition is absent from the
sources; per the spec it "produces the plain nested-map (the on-disk JSON
shape) representation": leaves stay scalars, nested mappings become plain
objects. -/
def serializeV : HVal → Plain
  | .leaf v => .leaf v
  | .node m => .obj (serializeM m)

/-- Plain-object image of a `HierarchyMapping`'s `_data`. -/
def serializeM : HMap → PFields
  | .nil => .nil
  | .cons k v rest => .cons k (serializeV v) (serializeM rest)
end

mutual
/-- Modelled from the spec: `HierarchyMapping.deserialize` is called by
`InstallationDatabase._load_db` but its definition is absent from the
sources; per the spec it "reconstructs the hierarchical map" from the plain
nested map, the way the `HierarchyMapping` constructor ingests a mapping:
one `__setitem__` per entry in order, nested plain maps converted the same
way (`__setattr__`'s Mapping conversion). -/
def ofPlainV : Plain → Except Err HVal
  | .leaf v => .ok (.leaf v)
  | .obj fs =>
    match deserializeFrom .nil fs with
    | .error e => .error e
    | .ok m => .ok (.node m)

/-- Ingest plain fields left to right by `__setitem__`. -/
def deserializeFrom : HMap → PFields → Except Err HMap
  | m, .nil => .ok m
  | m, .cons k p rest =>
    match ofPlainV p with
    | .error e => .error e
    | .ok v =>
      match setItem m k v with
      | .error e => .error e
      | .ok m' => deserializeFrom m' rest
end

/-- `HierarchyMapping.deserialize`, from the empty mapping. -/
def deserialize (fs : PFields) : Except Err HMap := deserializeFrom .nil fs

/-- A key reachable through the public mutation API: no dots (paths are
split on them before keys are stored) and no hyphens (normalized to
underscores by `__setitem__`). -/
def goodKey (k : String) : Bool := k.data.all (fun c => c ≠ '.' && c ≠ '-')

mutual
/-- Well-formedness of a stored value (the invariant `_data` satisfies in
every mapping built through the public API). -/
def wfV : HVal → Bool
  | .leaf _ => true
  | .node m => wfM m

/-- Well-formedness of `_data`: good keys, no duplicates, nested maps
well-formed. -/
def wfM : HMap → Bool
  | .nil => true
  | .cons k v rest => goodKey k && !(hmHasKey rest k) && wfV v && wfM rest
end

mutual
/-- One entry's contribution to the flattened view (`_keys` plus lookup):
a leaf is its own dotted path, a nested map contributes its flattened
entries prefixed by `key.`. -/
def flattenV (k : String) : HVal → List (String × PVal)
  | .leaf p => [(k, p)]
  | .node m => (flattenM m).map (fun kv => (k ++ "." ++ kv.1, kv.2))

/-- The flattened leaf view of a `HierarchyMapping` (dotted path, scalar). -/
def flattenM : HMap → List (String × PVal)
  | .nil => []
  | .cons k v rest => flattenV k v ++ flattenM rest
end

/-- Concatenation of two `_data` entry lists. -/
def hmAppend : HMap → HMap → HMap
  | .nil, m2 => m2
  | .cons k v rest, m2 => .cons k v (hmAppend rest m2)

/-- Every key of the second mapping is absent from the first. -/
def hmDisjoint : HMap → HMap → Bool
  | _, .nil => true
  | acc, .cons k _ rest => !(hmHasKey acc k) && hmDisjoint acc rest

/-! ### Path-resolution lemmas -/

theorem getPath_ok_or_err (segs : List String) : ∀ m : HMap,
    (∃ v, getPath m segs = .ok v) ∨ getPath m segs = .error .keyNotFound := by
  induction segs with
  | nil => intro m; exact Or.inr rfl
  | cons k rest ih =>
    intro m
    cases rest with
    | nil =>
      cases h : hmLookup m k with
      | some v => exact Or.inl ⟨v, by simp [getPath, h]⟩
      | none => exact Or.inr (by simp [getPath, h])
    | cons k' rest' =>
      cases h : hmLookup m k with
      | some v =>
        cases v with
        | leaf p => exact Or.inr (by simp [getPath, h])
        | node m' =>
          rcases ih m' with ⟨v, hv⟩ | hv
          · exact Or.inl ⟨v, by simp [getPath, h, hv]⟩
          · exact Or.inr (by simp [getPath, h, hv])
      | none => exact Or.inr (by simp [getPath, h])

theorem getPath_resolves (segs : List String) : ∀ (m : HMap) (v : HVal),
    getPath m segs = .ok v ↔ Resolves m segs v := by
  induction segs with
  | nil =>
    intro m v
    constructor
    · intro h; simp [getPath] at h
    · intro h; cases h
  | cons k rest ih =>
    intro m v
    cases rest with
    | nil =>
      constructor
      · intro h
        cases hl : hmLookup m k with
        | some w =>
          simp [getPath, hl] at h
          exact h ▸ Resolves.last hl
        | none => simp [getPath, hl] at h
      · intro h
        cases h with
        | last hl => simp [getPath, hl]
        | step hl hr => cases hr
    | cons k' rest' =>
      constructor
      · intro h
        cases hl : hmLookup m k with
        | some w =>
          cases w with
          | leaf p => simp [getPath, hl] at h
          | node m' => exact Resolves.step hl ((ih m' v).1 (by simpa [getPath, hl] using h))
        | none => simp [getPath, hl] at h
      · intro h
        cases h with
        | step hl hr =>
          simp only [getPath, hl]
          exact (ih _ _).2 hr

theorem containsPath_iff_getPath (segs : List String) : ∀ m : HMap,
    containsPath m segs = true ↔ ∃ v, getPath m segs = .ok v := by
  induction segs with
  | nil =>
    intro m
    constructor
    · intro h; simp [containsPath] at h
    · rintro ⟨v, hv⟩; simp [getPath] at hv
  | cons k rest ih =>
    intro m
    cases rest with
    | nil =>
      cases h : hmLookup m k with
      | some v =>
        constructor
        · intro _; exact ⟨v, by simp [getPath, h]⟩
        · intro _; simp [containsPath, hmHasKey, h]
      | none =>
        constructor
        · intro hc; simp [containsPath, hmHasKey, h] at hc
        · rintro ⟨v, hv⟩; simp [getPath, h] at hv
    | cons k' rest' =>
      cases h : hmLookup m k with
      | some v =>
        cases v with
        | leaf p =>
          constructor
          · intro hc; simp [containsPath, h] at hc
          · rintro ⟨v, hv⟩; simp [getPath, h] at hv
        | node m' =>
          constructor
          · intro hc
            rcases (ih m').1 (by simpa [containsPath, h] using hc) with ⟨v, hv⟩
            exact ⟨v, by simp [getPath, h, hv]⟩
          · rintro ⟨v, hv⟩
            simp only [containsPath, h]
            exact (ih m').2 ⟨v, by simpa [getPath, h] using hv⟩
      | none =>
        constructor
        · intro hc; simp [containsPath, h] at hc
        · rintro ⟨v, hv⟩; simp [getPath, h] at hv

theorem normalize_eq_self {s : String} (h : ∀ c ∈ s.data, c ≠ '-') :
    normalize s = s := by
  cases s with
  | mk data =>
    show String.mk (data.map normChar) = String.mk data
    congr 1
    induction data with
    | nil => rfl
    | cons c cs ih =>
      have hc : c ≠ '-' := h c (by simp)
      simp only [List.map_cons, List.cons.injEq]
      exact ⟨by simp [normChar, hc], ih fun c' hc' => h c' (by simp [hc'])⟩

/-! ### Serialization lemmas -/

theorem goodKey_spec {k : String} (h : goodKey k = true) :
    (∀ c ∈ k.data, c ≠ '.') ∧ ∀ c ∈ k.data, c ≠ '-' := by
  simp only [goodKey, List.all_eq_true, Bool.and_eq_true, decide_eq_true_iff] at h
  exact ⟨fun c hc => (h c hc).1, fun c hc => (h c hc).2⟩

theorem splitList_no_dot : ∀ l : List Char, (∀ c ∈ l, c ≠ '.') → splitList l = [l] := by
  intro l
  induction l with
  | nil => intro _; rfl
  | cons c rest ih =>
    intro h
    have hrest := ih fun c' hc' => h c' (by simp [hc'])
    have hc : c ≠ '.' := h c (by simp)
    simp [splitList, hrest, hc]

theorem splitSegs_goodKey {k : String} (h : goodKey k = true) : splitSegs k = [k] := by
  cases k with
  | mk data =>
    show (splitList data).map (fun l => String.mk l) = [String.mk data]
    rw [splitList_no_dot data (goodKey_spec h).1]
    rfl

theorem normalize_goodKey {k : String} (h : goodKey k = true) : normalize k = k :=
  normalize_eq_self (goodKey_spec h).2

theorem setItem_goodKey {k : String} (m : HMap) (v : HVal) (h : goodKey k = true) :
    setItem m k v = .ok (hmSet m k v) := by
  rw [setItem, normalize_goodKey h, splitSegs_goodKey h]
  rfl

theorem hmHasKey_false {m : HMap} {k k' : String} {v : HVal}
    (h : hmHasKey (.cons k' v m) k = false) : k' ≠ k ∧ hmHasKey m k = false := by
  by_cases hkk : k' = k
  · simp [hmHasKey, hmLookup, hkk] at h
  · constructor
    · exact hkk
    · simpa [hmHasKey, hmLookup, hkk] using h

theorem hmSet_eq_append {k : String} (v : HVal) :
    ∀ m : HMap, hmHasKey m k = false → hmSet m k v = hmAppend m (.cons k v .nil)
  | .nil, _ => rfl
  | .cons k' v' rest, h => by
    obtain ⟨hne, hrest⟩ := hmHasKey_false h
    simp [hmSet, hmAppend, hne, hmSet_eq_append v rest hrest]

theorem hmHasKey_append (k : String) : ∀ a b : HMap,
    hmHasKey (hmAppend a b) k = (hmHasKey a k || hmHasKey b k)
  | .nil, b => by simp [hmAppend, hmHasKey, hmLookup]
  | .cons k' v rest, b => by
    by_cases hkk : k' = k
    · simp [hmAppend, hmHasKey, hmLookup, hkk]
    · simpa [hmAppend, hmHasKey, hmLookup, hkk] using hmHasKey_append k rest b

theorem hmAppend_nil : ∀ m : HMap, hmAppend m .nil = m
  | .nil => rfl
  | .cons k v rest => by simp [hmAppend, hmAppend_nil rest]

theorem hmDisjoint_extend {acc : HMap} {k : String} (v : HVal) :
    ∀ rest : HMap, hmDisjoint acc rest = true → hmHasKey rest k = false →
      hmDisjoint (hmAppend acc (.cons k v .nil)) rest = true
  | .nil, _, _ => rfl
  | .cons k' v' rest', hd, hk => by
    obtain ⟨hne, hrest⟩ := hmHasKey_false hk
    simp only [hmDisjoint, Bool.and_eq_true, Bool.not_eq_true'] at hd
    obtain ⟨hak, hdrest⟩ := hd
    simp only [hmDisjoint, Bool.and_eq_true, Bool.not_eq_true']
    refine ⟨?_, hmDisjoint_extend v rest' hdrest hrest⟩
    rw [hmHasKey_append]
    have hlk : hmLookup acc k' = none := by
      cases hl : hmLookup acc k' with
      | none => rfl
      | some w => simp [hmHasKey, hl] at hak
    simp [hmHasKey, hmLookup, hlk]
    exact fun he => hne he.symm

theorem hmDisjoint_nil_left : ∀ m : HMap, hmDisjoint .nil m = true
  | .nil => rfl
  | .cons k v rest => by
    simp [hmDisjoint, hmHasKey, hmLookup, hmDisjoint_nil_left rest]

theorem hmAppend_snoc (k : String) (v : HVal) (c : HMap) :
    ∀ a : HMap, hmAppend (hmAppend a (.cons k v .nil)) c = hmAppend a (.cons k v c)
  | .nil => rfl
  | .cons k' v' rest => by simp [hmAppend, hmAppend_snoc k v c rest]

mutual
theorem ofPlainV_serializeV : ∀ v : HVal, wfV v = true → ofPlainV (serializeV v) = .ok v
  | .leaf _, _ => rfl
  | .node m, h => by
    have hr := deserializeFrom_serializeM m .nil h (hmDisjoint_nil_left m)
    simp only [serializeV, ofPlainV, hr, hmAppend, Except.map]

theorem deserializeFrom_serializeM : ∀ m acc : HMap, wfM m = true → hmDisjoint acc m = true →
    deserializeFrom acc (serializeM m) = .ok (hmAppend acc m)
  | .nil, acc, _, _ => by
    simp [serializeM, deserializeFrom, hmAppend_nil]
  | .cons k v rest, acc, h, hd => by
    simp only [wfM, Bool.and_eq_true, Bool.not_eq_true'] at h
    obtain ⟨⟨⟨hk, hnk⟩, hv⟩, hrest⟩ := h
    simp only [hmDisjoint, Bool.and_eq_true, Bool.not_eq_true'] at hd
    obtain ⟨hak, hdrest⟩ := hd
    have e1 := ofPlainV_serializeV v hv
    have e2 := setItem_goodKey acc v hk
    have e3 := hmSet_eq_append v acc hak
    have e4 := deserializeFrom_serializeM rest (hmAppend acc (.cons k v .nil)) hrest
      (hmDisjoint_extend v rest hdrest hnk)
    simp only [serializeM, deserializeFrom, e1, e2, e3, e4, Except.bind,
      hmAppend_snoc]
end

/-! ### Claim C2 -/

/-- C2: for every hierarchical map `m` satisfying the key invariant every
API-built mapping has (dot-free, hyphen-free, duplicate-free keys),
`deserialize (serialize m)` succeeds and equals `m` under flattened-key
comparison.  `serialize`/`deserialize` are modelled from the spec (their
definitions are absent from the sources; only `_dump_db`/`_load_db` call
them). -/
theorem deserialize_serialize_roundtrip (m : HMap) (h : wfM m = true) :
    ∃ m', deserialize (serializeM m) = .ok m' ∧ flattenM m' = flattenM m :=
  ⟨m, by
    have hr := deserializeFrom_serializeM m .nil h (hmDisjoint_nil_left m)
    simpa [deserialize, hmAppend] using hr, rfl⟩

/-- Witness for C2 at a concrete nested toolchain record. -/
theorem deserialize_serialize_roundtrip_witness :
    ∃ m', deserialize (serializeM (HMap.cons "name" (.leaf (.s "avrdude"))
        (HMap.cons "tools" (.node (HMap.cons "avrdude"
          (.node (HMap.cons "path" (.leaf (.s "avrdude.exe")) .nil)) .nil)) .nil)))
      = .ok m' ∧
    flattenM m' = flattenM (HMap.cons "name" (.leaf (.s "avrdude"))
        (HMap.cons "tools" (.node (HMap.cons "avrdude"
          (.node (HMap.cons "path" (.leaf (.s "avrdude.exe")) .nil)) .nil)) .nil)) :=
  deserialize_serialize_roundtrip _ (by decide)

/-! ### The full `getattr` resolution semantics

`__getitem__` resolves each segment with Python `getattr`, and `getattr`
consults the object's ordinary attribute namespace *before* the
`__getattr__` fallback into `_data`: `hm['copy']` returns the bound method
even when `copy` is no key, and the class docstring itself asserts
`hm['outer.inner.__class__'] == str`.  The ambient attribute tables are an
abstract environment (`PyWorld`); the data-only walk above is the special
case in which no walked segment names an attribute. -/

/-- A Python runtime value reached while resolving a dotted path with
`getattr`: a `HierarchyMapping` instance, a scalar leaf, or any other
Python object (a bound method, a type object, the `_data` dict, ...)
obtained through ordinary attribute access. -/
inductive RVal (Obj : Type)
  | hm (m : HMap)
  | scalar (v : PVal)
  | obj (o : Obj)
deriving DecidableEq, Repr

/-- The ambient Python attribute tables: `hmAttr m k` is the result of
*normal* attribute lookup (class attributes such as `copy`, dunders such as
`__class__`, the `_data` slot) on a `HierarchyMapping` instance holding
`m`, consulted before `__getattr__` fires; `scalarAttr v k` is the
attribute namespace of the scalar `v`; `objAttr o k` that of any other
object. -/
structure PyWorld (Obj : Type) where
  hmAttr : HMap → String → Option (RVal Obj)
  scalarAttr : PVal → String → Option (RVal Obj)
  objAttr : Obj → String → Option (RVal Obj)

/-- Python `getattr` on a runtime value: on a `HierarchyMapping`, normal
attribute lookup first, then `__getattr__` (`self._data[item]`, raising
`AttributeError` when absent); on a scalar or any other object, its
attribute table (`none` = `AttributeError`). -/
def pyGetattr (w : PyWorld Obj) : RVal Obj → String → Option (RVal Obj)
  | .hm m, k =>
    match w.hmAttr m k with
    | some r => some r
    | none =>
      match hmLookup m k with
      | some (.leaf v) => some (.scalar v)
      | some (.node m') => some (.hm m')
      | none => none
  | .scalar v, k => w.scalarAttr v k
  | .obj o, k => w.objAttr o k

/-- `get_value_at`/`find_parent` with the full `getattr` semantics: fold
`getattr` over the pre-split segments; an `AttributeError` anywhere becomes
`KeyError` (`KeyNotFound` kind) in `__getitem__`. -/
def getPathW (w : PyWorld Obj) : RVal Obj → List String → Except Err (RVal Obj)
  | _, [] => .error .keyNotFound
  | r, k :: rest =>
    match pyGetattr w r k with
    | none => .error .keyNotFound
    | some r' =>
      match rest with
      | [] => .ok r'
      | _ :: _ => getPathW w r' rest

/-- `HierarchyMapping.__getitem__` under the ambient attribute tables:
hyphens normalized, then the `getattr` walk starting at the mapping. -/
def getItemW (w : PyWorld Obj) (m : HMap) (key : String) : Except Err (RVal Obj) :=
  getPathW w (.hm m) (splitSegs (normalize key))

/-- Stored values as runtime values. -/
def embedR (Obj : Type) : HVal → RVal Obj
  | .leaf v => .scalar v
  | .node m => .hm m

/-- Concrete Python objects the counterexamples reach through attribute
access. -/
inductive PyObj
  | method
  | typeObj
deriving DecidableEq, Repr

/-- A fragment of CPython's attribute tables covering exactly the names the
counterexamples probe: every `HierarchyMapping` instance has the class
attribute `copy` (a bound method, found before `__getattr__`), and every
scalar has `__class__` (its type — the class docstring at
`hierarchy_mapping.py` asserts `hm['outer.inner.__class__'] == str`).
All other probed names resolve to no attribute. -/
def pyAttrs : PyWorld PyObj where
  hmAttr := fun _ k => if k = "copy" then some (.obj .method) else none
  scalarAttr := fun _ k => if k = "__class__" then some (.obj .typeObj) else none
  objAttr := fun _ _ => none

theorem embedR_injective {Obj : Type} {v v' : HVal}
    (h : embedR Obj v = embedR Obj v') : v = v' := by
  cases v <;> cases v' <;> simp_all [embedR]

theorem getPathW_eq_getPath {Obj : Type} (w : PyWorld Obj) :
    ∀ (segs : List String) (m : HMap),
      (∀ m' k, k ∈ segs → w.hmAttr m' k = none) →
      (∀ v k, k ∈ segs → w.scalarAttr v k = none) →
      getPathW w (.hm m) segs = (getPath m segs).map (embedR Obj) := by
  intro segs
  induction segs with
  | nil => intro m _ _; rfl
  | cons k rest ih =>
    intro m hA hS
    have hAk : w.hmAttr m k = none := hA m k (by simp)
    cases hl : hmLookup m k with
    | none =>
      cases rest with
      | nil => simp [getPathW, pyGetattr, hAk, hl, getPath, Except.map]
      | cons k' rest' => simp [getPathW, pyGetattr, hAk, hl, getPath, Except.map]
    | some v =>
      cases v with
      | leaf pv =>
        cases rest with
        | nil => simp [getPathW, pyGetattr, hAk, hl, getPath, Except.map, embedR]
        | cons k' rest' =>
          have hSk' : w.scalarAttr pv k' = none := hS pv k' (by simp)
          simp [getPathW, pyGetattr, hAk, hl, getPath, Except.map, hSk']
      | node m' =>
        cases rest with
        | nil => simp [getPathW, pyGetattr, hAk, hl, getPath, Except.map, embedR]
        | cons k' rest' =>
          have hrec := ih m' (fun m'' k'' hk => hA m'' k'' (by simp [hk]))
            (fun v'' k'' hk => hS v'' k'' (by simp [hk]))
          simp only [getPathW, pyGetattr, hAk, hl, getPath]
          exact hrec

/-! ### Claims C4 and C5 -/

/-- C5 counterexample: `get` does not fail whenever a segment is absent or
a scalar is traversed.  With the documented attribute behaviour, on the map
`{a: 5}` the path `"a.__class__"` descends through the scalar `5` to a
segment that is no data key anywhere, yet `get` returns the type object
instead of raising; likewise `get("copy")` on the empty mapping returns
the bound method although `copy` is no key. -/
theorem get_attribute_resolution_counterexample :
    hmLookup (HMap.cons "a" (.leaf (.i 5)) .nil) "__class__" = none ∧
    getItemW pyAttrs (HMap.cons "a" (.leaf (.i 5)) .nil) "a.__class__"
      = .ok (.obj .typeObj) ∧
    getItemW pyAttrs .nil "copy" = .ok (.obj .method) := by
  refine ⟨by decide, rfl, rfl⟩

/-- C5 (amended): `get(p)` resolves each (hyphen-normalized) segment with
Python `getattr`, so a segment naming a Python attribute of the current
object resolves through attribute access even when it is absent from the
data or the current object is a scalar.  On walks free of such attribute
interference, `get(p)` returns the value stored at `p` exactly when every
segment resolves through nested maps, and fails — always with the
`KeyNotFound` kind — exactly when some segment is absent or a scalar is
traversed through. -/
theorem get_resolution_without_attribute_interference {Obj : Type}
    (w : PyWorld Obj) (m : HMap) (p : String)
    (hA : ∀ m' k, k ∈ splitSegs (normalize p) → w.hmAttr m' k = none)
    (hS : ∀ v k, k ∈ splitSegs (normalize p) → w.scalarAttr v k = none) :
    (∀ v, getItemW w m p = .ok (embedR Obj v) ↔ Resolves m (splitSegs (normalize p)) v) ∧
    ((¬ ∃ v, Resolves m (splitSegs (normalize p)) v) →
      getItemW w m p = .error .keyNotFound) := by
  have hb := getPathW_eq_getPath w (splitSegs (normalize p)) m hA hS
  constructor
  · intro v
    rw [getItemW, hb]
    constructor
    · intro h
      cases hp : getPath m (splitSegs (normalize p)) with
      | error e => rw [hp] at h; simp [Except.map] at h
      | ok v' =>
        rw [hp] at h
        simp only [Except.map, Except.ok.injEq] at h
        exact (getPath_resolves _ m v).1 (embedR_injective h ▸ hp)
    · intro h
      rw [(getPath_resolves _ m v).2 h]
      rfl
  · intro h
    rw [getItemW, hb]
    rcases getPath_ok_or_err (splitSegs (normalize p)) m with ⟨v, hv⟩ | herr
    · exact absurd ⟨v, (getPath_resolves _ m v).1 hv⟩ h
    · rw [herr]; rfl

/-- Witness for C5's amended theorem: the map `{a: "x"}` and the absent,
attribute-free path `"b"` under the concrete attribute tables. -/
theorem get_resolution_without_attribute_interference_witness :
    getItemW pyAttrs (HMap.cons "a" (.leaf (.s "x")) .nil) "b"
      = .error .keyNotFound :=
  (get_resolution_without_attribute_interference pyAttrs
      (HMap.cons "a" (.leaf (.s "x")) .nil) "b"
      (by
        intro m' k hk
        have hs : splitSegs (normalize "b") = ["b"] := by decide
        rw [hs] at hk
        simp only [List.mem_singleton] at hk
        subst hk
        rfl)
      (by
        intro v k hk
        have hs : splitSegs (normalize "b") = ["b"] := by decide
        rw [hs] at hk
        simp only [List.mem_singleton] at hk
        subst hk
        rfl)).2
    (by
      rintro ⟨v, hv⟩
      have hs : splitSegs (normalize "b") = ["b"] := by decide
      rw [hs] at hv
      have hnone : hmLookup (HMap.cons "a" (.leaf (.s "x")) .nil) "b" = none := by decide
      cases hv with
      | last hl => rw [hnone] at hl; cases hl
      | step hl _ => rw [hnone] at hl; cases hl)

/-- C4 counterexample: `contains` does not mirror `get`'s resolution.
After storing `"register-tools"` (normalized by `__setitem__` to the key
`register_tools`), `get` on `"register-tools"` succeeds while `contains`
on the very same path is `false` (`__contains__` does not normalize
hyphens); and on the hyphen-free path `"copy"` over the empty mapping,
`get` succeeds through attribute access while `contains` is `false`. -/
theorem contains_hyphen_counterexample :
    setItem .nil "register-tools" (.leaf (.b true))
      = .ok (HMap.cons "register_tools" (.leaf (.b true)) .nil) ∧
    getItemW pyAttrs (HMap.cons "register_tools" (.leaf (.b true)) .nil) "register-tools"
      = .ok (.scalar (.b true)) ∧
    containsItem (HMap.cons "register_tools" (.leaf (.b true)) .nil) "register-tools"
      = false ∧
    getItemW pyAttrs .nil "copy" = .ok (.obj .method) ∧
    containsItem .nil "copy" = false := by
  refine ⟨rfl, rfl, by decide, rfl, by decide⟩

/-- C4 (amended): `contains(p)` resolves through the mapping data only —
it applies no hyphen normalization and consults no Python attributes.  On
every path without hyphens whose segments name no Python attribute along
the walk, it returns true exactly when `get(p)` succeeds, never raising.
`get` (and `set`), but not `contains`, treat `"register-tools"` and
`"register_tools"` as the same leaf; `get`, but not `contains`, resolves
attribute-named segments such as `copy`. -/
theorem contains_matches_get_attribute_free {Obj : Type}
    (w : PyWorld Obj) (m : HMap) (p : String)
    (hH : ∀ c ∈ p.data, c ≠ '-')
    (hA : ∀ m' k, k ∈ splitSegs p → w.hmAttr m' k = none)
    (hS : ∀ v k, k ∈ splitSegs p → w.scalarAttr v k = none) :
    (containsItem m p = true ↔ ∃ r, getItemW w m p = .ok r) ∧
    getItemW w m "register-tools" = getItemW w m "register_tools" := by
  have hnorm : normalize p = p := normalize_eq_self hH
  have hb := getPathW_eq_getPath w (splitSegs p) m hA hS
  constructor
  · rw [containsItem, getItemW, hnorm, hb]
    constructor
    · intro hc
      rcases (containsPath_iff_getPath _ m).1 hc with ⟨v, hv⟩
      exact ⟨embedR Obj v, by rw [hv]; rfl⟩
    · rintro ⟨r, hr⟩
      cases hp : getPath m (splitSegs p) with
      | error e => rw [hp] at hr; simp [Except.map] at hr
      | ok v => exact (containsPath_iff_getPath _ m).2 ⟨v, hp⟩
  · have hn : normalize "register-tools" = normalize "register_tools" := by decide
    rw [getItemW, getItemW, hn]

/-- Witness for C4's amended theorem at the concrete map
`{register_tools: true}` and the hyphen- and attribute-free path
`"register_tools"`. -/
theorem contains_matches_get_attribute_free_witness :
    (containsItem (HMap.cons "register_tools" (.leaf (.b true)) .nil) "register_tools" = true ↔
      ∃ r, getItemW pyAttrs (HMap.cons "register_tools" (.leaf (.b true)) .nil)
        "register_tools" = .ok r) ∧
    getItemW pyAttrs (HMap.cons "register_tools" (.leaf (.b true)) .nil) "register-tools"
      = getItemW pyAttrs (HMap.cons "register_tools" (.leaf (.b true)) .nil) "register_tools" :=
  contains_matches_get_attribute_free pyAttrs
    (HMap.cons "register_tools" (.leaf (.b true)) .nil) "register_tools"
    (by decide)
    (by
      intro m' k hk
      have hs : splitSegs "register_tools" = ["register_tools"] := by decide
      rw [hs] at hk
      simp only [List.mem_singleton] at hk
      subst hk
      rfl)
    (by
      intro v k hk
      have hs : splitSegs "register_tools" = ["register_tools"] := by decide
      rw [hs] at hk
      simp only [List.mem_singleton] at hk
      subst hk
      rfl)

/-! ### The argument templating engine (`tools/arguments.py`)

`NamedArgument` instances are mutable Python objects; templates hold
references to them.  The heap of those objects is made explicit so that
sharing between a template and its copy is observable.  `on_compile` is
specialized to the default string conversion, so constants carry their
rendered token and values are strings. -/

/-- The mutable state of one `NamedArgument` object: its `_name` and its
`_value` slot (`none` = unset, `some v` = the stored 1-tuple `(v,)`). -/
structure NamedCell where
  name : String
  val : Option String
deriving DecidableEq, Repr

/-- The heap of `NamedArgument` objects; `Arg.named` holds an index into
it. -/
abbrev Heap := List NamedCell

/-- Read a heap cell (references in reachable states are always valid; a
dangling reference reads a junk cell). -/
def heapGet (h : Heap) (r : Nat) : NamedCell := h.getD r ⟨"", none⟩

mutual
/-- One argument unit: `ConstantArgument` (rendered token),
`NamedArgument` (heap reference), or `TagArgument` (leading tag token,
the units of `_arguments[1:]`, and the `required` flag;
`separate_tag_and_args` is not modelled because `compile` ignores it). -/
inductive Arg
  | const (token : String)
  | named (ref : Nat)
  | tag (tagTok : String) (parts : ArgList) (required : Bool)
deriving DecidableEq, Repr

/-- An ordered sequence of argument units. -/
inductive ArgList
  | nil
  | cons (a : Arg) (rest : ArgList)
deriving DecidableEq, Repr
end

mutual
/-- `Argument.compile`: a constant yields its token; a named unit yields its
set value or raises `KeyError` (`KeyNotFound` kind) when unset; a tag
compiles the tag token and all nested units, and on any `KeyError` from them
raises `KeyError` (`UnresolvedArgument` kind) when required, else renders to
nothing. -/
def compileArg (h : Heap) : Arg → Except Err (List String)
  | .const t => .ok [t]
  | .named r =>
    match (heapGet h r).val with
    | some v => .ok [v]
    | none => .error .keyNotFound
  | .tag t parts req =>
    match compileArgs h parts with
    | .ok ts => .ok (t :: ts)
    | .error _ => if req then .error .unresolvedArgument else .ok []

/-- Left-to-right compilation and concatenation (`itertools.chain`), first
error escaping. -/
def compileArgs (h : Heap) : ArgList → Except Err (List String)
  | .nil => .ok []
  | .cons a rest =>
    match compileArg h a with
    | .error e => .error e
    | .ok ts =>
      match compileArgs h rest with
      | .error e => .error e
      | .ok ts' => .ok (ts ++ ts')
end

mutual
/-- `Argument.named_arguments`: the `NamedArgument` references a unit holds
(a tag chains over `_arguments[1:]`). -/
def namedRefsArg : Arg → List Nat
  | .const _ => []
  | .named r => [r]
  | .tag _ parts _ => namedRefsList parts

/-- References collected across a sequence of units. -/
def namedRefsList : ArgList → List Nat
  | .nil => []
  | .cons a rest => namedRefsArg a ++ namedRefsList rest
end

/-- `Argument.copy`: a constant is rebuilt; `NamedArgument.copy` allocates a
fresh object with the same name and `_value`; `TagArgument.copy` builds a new
tag around `*self._arguments[1:]` — the same nested objects, not copies. -/
def copyArg (h : Heap) : Arg → Heap × Arg
  | .const t => (h, .const t)
  | .named r => (h ++ [heapGet h r], .named h.length)
  | .tag t parts req => (h, .tag t parts req)

/-- Append a unit at the end of the sequence. -/
def argAppend : ArgList → Arg → ArgList
  | .nil, a => .cons a .nil
  | .cons a' rest, a => .cons a' (argAppend rest a)

/-- `OrderedDict` lookup on the `_namespace`. -/
def assocLookup : List (String × Nat) → String → Option Nat
  | [], _ => none
  | (k', r') :: rest, k => if k' = k then some r' else assocLookup rest k

/-- `OrderedDict` assignment: replace in place when present, else append. -/
def assocSet : List (String × Nat) → String → Nat → List (String × Nat)
  | [], k, r => [(k, r)]
  | (k', r') :: rest, k, r =>
    if k' = k then (k', r) :: rest else (k', r') :: assocSet rest k r

/-- An `ArgumentList` template: the ordered units and the `_namespace`
mapping a `NamedArgument`'s name to the object it denotes. -/
structure ArgTemplate where
  arguments : ArgList
  ns : List (String × Nat)
deriving DecidableEq, Repr

/-- `ArgumentList.add_argument`: append the unit and update the namespace
with each of its named units, keyed by the object's name. -/
def addArgument (h : Heap) (al : ArgTemplate) (a : Arg) : ArgTemplate :=
  { arguments := argAppend al.arguments a,
    ns := (namedRefsArg a).foldl (fun ns r => assocSet ns (heapGet h r).name r) al.ns }

/-- `ArgumentList.__getitem__`: namespace lookup (`KeyError` when the name is
unknown) then `NamedArgument.value` (`KeyError` when unset). -/
def getValue (h : Heap) (al : ArgTemplate) (key : String) : Except Err String :=
  match assocLookup al.ns key with
  | none => .error .keyNotFound
  | some r =>
    match (heapGet h r).val with
    | none => .error .keyNotFound
    | some v => .ok v

/-- `ArgumentList.__setitem__`: namespace lookup, then assign the value into
the named object's `_value` slot. -/
def setValue (h : Heap) (al : ArgTemplate) (key : String) (v : String) :
    Except Err Heap :=
  match assocLookup al.ns key with
  | none => .error .keyNotFound
  | some r => .ok (h.set r ⟨(heapGet h r).name, some v⟩)

/-- `ArgumentList.compile`: concatenate each top-level unit's rendering,
errors propagating. -/
def compileAll (h : Heap) (al : ArgTemplate) : Except Err (List String) :=
  compileArgs h al.arguments

/-- The loop of `ArgumentList.copy`: copy each unit, then `add_argument` it
to the output template. -/
def copyFold (h : Heap) (acc : ArgTemplate) : ArgList → Heap × ArgTemplate
  | .nil => (h, acc)
  | .cons a rest =>
    let p := copyArg h a
    copyFold p.1 (addArgument p.1 acc p.2) rest

/-- `ArgumentList.copy`: a fresh template built by copying every unit. -/
def copyAll (h : Heap) (al : ArgTemplate) : Heap × ArgTemplate :=
  copyFold h ⟨.nil, []⟩ al.arguments

/-- `TagArgument.__init__` with `named_default=True`: each bare string
becomes a freshly allocated `NamedArgument`. -/
def allocNames (h : Heap) : List String → Heap × ArgList
  | [] => (h, .nil)
  | n :: rest =>
    let h' := h ++ [⟨n, none⟩]
    let p := allocNames h' rest
    (p.1, .cons (.named h.length) p.2)

/-- `ArgumentList.add_tag` with bare-string names and `named_default=True`. -/
def addTag (h : Heap) (al : ArgTemplate) (tagTok : String) (names : List String)
    (req : Bool) : Heap × ArgTemplate :=
  let p := allocNames h names
  (p.1, addArgument p.1 al (.tag tagTok p.2 req))

/-! ### Claims C7, C8, C10 -/

/-- C8: in a template whose single unit is a tag depending on one named
unit, a required tag fails `compile()` with the `UnresolvedArgument` kind
while the named unit is unset; once the value is assigned, `compile()`
succeeds and renders the tag token immediately followed by the value; a
non-required tag under an unset named unit contributes no tokens and
`compile()` succeeds. -/
theorem tag_compile_resolution (t n v : String) :
    (compileAll (addTag [] ⟨.nil, []⟩ t [n] true).1 (addTag [] ⟨.nil, []⟩ t [n] true).2
      = .error .unresolvedArgument) ∧
    (∃ h', setValue (addTag [] ⟨.nil, []⟩ t [n] true).1
        (addTag [] ⟨.nil, []⟩ t [n] true).2 n v = .ok h' ∧
      compileAll h' (addTag [] ⟨.nil, []⟩ t [n] true).2 = .ok [t, v]) ∧
    (compileAll (addTag [] ⟨.nil, []⟩ t [n] false).1 (addTag [] ⟨.nil, []⟩ t [n] false).2
      = .ok []) := by
  refine ⟨?_, ⟨[⟨n, some v⟩], ?_, ?_⟩, ?_⟩ <;>
    simp [addTag, allocNames, addArgument, namedRefsArg, namedRefsList, argAppend,
      compileAll, compileArgs, compileArg, heapGet, assocSet, assocLookup, setValue,
      getValue]

/-- Witness for C8 at concrete strings. -/
theorem tag_compile_resolution_witness :
    (compileAll (addTag [] ⟨.nil, []⟩ "-p" ["part"] true).1
        (addTag [] ⟨.nil, []⟩ "-p" ["part"] true).2 = .error .unresolvedArgument) ∧
    (∃ h', setValue (addTag [] ⟨.nil, []⟩ "-p" ["part"] true).1
        (addTag [] ⟨.nil, []⟩ "-p" ["part"] true).2 "part" "m328p" = .ok h' ∧
      compileAll h' (addTag [] ⟨.nil, []⟩ "-p" ["part"] true).2 = .ok ["-p", "m328p"]) ∧
    (compileAll (addTag [] ⟨.nil, []⟩ "-p" ["part"] false).1
        (addTag [] ⟨.nil, []⟩ "-p" ["part"] false).2 = .ok []) :=
  tag_compile_resolution "-p" "part" "m328p"

/-- C7: the claim fails on the code.  `TagArgument.copy` passes the original
nested argument objects (`*self._arguments[1:]`) into the new tag instead of
copying them, so a named unit nested inside a tag is shared between a
template and its copy: before the copy is touched the original reads unset,
and after assigning `"v"` through the copy, the original template observes
`"v"`. -/
theorem copy_shares_tag_named_cells :
    getValue
      (copyAll [⟨"x", none⟩]
        (addArgument [⟨"x", none⟩] ⟨.nil, []⟩ (.tag "-t" (.cons (.named 0) .nil) true))).1
      (addArgument [⟨"x", none⟩] ⟨.nil, []⟩ (.tag "-t" (.cons (.named 0) .nil) true))
      "x" = .error .keyNotFound ∧
    ∃ h', setValue
        (copyAll [⟨"x", none⟩]
          (addArgument [⟨"x", none⟩] ⟨.nil, []⟩ (.tag "-t" (.cons (.named 0) .nil) true))).1
        (copyAll [⟨"x", none⟩]
          (addArgument [⟨"x", none⟩] ⟨.nil, []⟩ (.tag "-t" (.cons (.named 0) .nil) true))).2
        "x" "v" = .ok h' ∧
      getValue h'
        (addArgument [⟨"x", none⟩] ⟨.nil, []⟩ (.tag "-t" (.cons (.named 0) .nil) true))
        "x" = .ok "v" :=
  ⟨rfl, [⟨"x", some "v"⟩], rfl, rfl⟩

/-- C10: `list[name]` fails with the same `KeyNotFound` error kind both when
no named unit with that name exists in the template and when it exists but
its value is unset. -/
theorem getitem_keyNotFound_two_ways (h : Heap) (al : ArgTemplate) (k : String) :
    (assocLookup al.ns k = none → getValue h al k = .error .keyNotFound) ∧
    (∀ r, assocLookup al.ns k = some r → (heapGet h r).val = none →
      getValue h al k = .error .keyNotFound) := by
  constructor
  · intro hl
    simp [getValue, hl]
  · intro r hl hv
    simp [getValue, hl, hv]

/-- Witness for C10: a template with one unset named unit `x`; both the
unknown name `y` and the unset name `x` read as `KeyNotFound`. -/
theorem getitem_keyNotFound_two_ways_witness :
    getValue [⟨"x", none⟩] ⟨.nil, [("x", 0)]⟩ "y" = .error .keyNotFound ∧
    getValue [⟨"x", none⟩] ⟨.nil, [("x", 0)]⟩ "x" = .error .keyNotFound :=
  ⟨(getitem_keyNotFound_two_ways [⟨"x", none⟩] ⟨.nil, [("x", 0)]⟩ "y").1 rfl,
   (getitem_keyNotFound_two_ways [⟨"x", none⟩] ⟨.nil, [("x", 0)]⟩ "x").2 0 rfl rfl⟩

/-! ### The installation database (`toolchains/installation_database.py`)

The database's environment — filesystem classification of the install
source and the outcomes of the decompression collaborators — is an abstract
world.  Paths are taken to be absolute, so `os.path.abspath` is the
identity. -/

/-- The `_installed_db` dict: metadata records keyed by `metadata['name']`
(a Python dict key, so any value; in practice the toolchain's name). -/
abbrev Table := List (HVal × HMap)

/-- Python dict lookup on the installed table. -/
def tableLookup : Table → HVal → Option HMap
  | [], _ => none
  | (k', v) :: rest, k => if k' = k then some v else tableLookup rest k

/-- Python dict assignment on the installed table (replace in place or
append: last write wins silently). -/
def tableSet : Table → HVal → HMap → Table
  | [], k, v => [(k, v)]
  | (k', v') :: rest, k, v =>
    if k' = k then (k', v) :: rest else (k', v') :: tableSet rest k v

/-- `del self._installed_db[name]`. -/
def tableDel : Table → HVal → Table
  | [], _ => []
  | (k', v') :: rest, k => if k' = k then rest else (k', v') :: tableDel rest k

/-- Lookup in a plain JSON object (`'name' in metadata` / `metadata['name']`
on the raw mapping). -/
def plainLookup : PFields → String → Option Plain
  | .nil, _ => none
  | .cons k' p rest, k => if k' = k then some p else plainLookup rest k

/-- The serialized form `_dump_db` writes: the list of serialized records
(keys dropped; `json.dump` of `list(metadata.serialize() ...)`). -/
def dumpFile (t : Table) : List PFields := t.map fun kv => serializeM kv.2

/-- `_load_db`: the cached table if loaded, else the parsed
`installations.json` keyed by each record's `name` (an empty table when the
file does not exist).  A record without a scalar `name`, or one that fails
to deserialize, would raise at load time; such records never arise from
`_dump_db` and are mapped to junk here. -/
def loadTable (fs : Option (List PFields)) : Option Table → Table
  | some t => t
  | none =>
    match fs with
    | none => []
    | some l => l.map fun p =>
        (match plainLookup p "name" with
         | some (.leaf pv) => HVal.leaf pv
         | _ => HVal.leaf (.s ""),
         match deserialize p with
         | .ok m => m
         | .error _ => .nil)

/-- The abstract environment of one `install` call.  `webFresh` is the path
of the freshly allocated sub-store (`self._store.store()`) the
download-and-decompress collaborator extracts into, `webOk` its outcome;
`localFresh`/`localOk` the same for local-archive decompression.
`WebStore.decompress` itself is modelled from the spec: it is called here
and in the tests but its definition is absent from the sources. -/
structure World where
  isFile : String → Bool
  isDir : String → Bool
  webOk : Bool
  webFresh : String
  localOk : Bool
  localFresh : String

/-- The persistent state of one `InstallationDatabase` instance. -/
structure DBState where
  storePath : String
  table : Option Table
deriving Repr

/-- The on-disk state: the `installations.json` contents (if present) and
the set of extant directories. -/
structure FS where
  file : Option (List PFields)
  dirs : List String
deriving Repr

/-- `str.startswith`: character-wise prefix test. -/
def strPrefix (p s : String) : Bool := p.data.isPrefixOf s.data

/-- `path.startswith('http://') or path.startswith('https://')`. -/
def isUrl (s : String) : Bool :=
  strPrefix "http://" s || strPrefix "https://" s

/-- The tail of `install`: stamp the resolved path into the record
(`metadata['path'] = path`; `"path"` is a plain key, so `__setitem__` is a
dict assignment), insert the record keyed by `metadata['name']`, and dump
the table.  The sub-store directories created along the way are not
modelled. -/
def finishInstall (db : DBState) (fs : FS) (path : String) (m : HMap) :
    (DBState × FS) × Option Err :=
  let m' := hmSet m "path" (.leaf (.s path))
  let key := (hmLookup m' "name").getD (.leaf (.s ""))
  let table' := tableSet (loadTable fs.file db.table) key m'
  ((⟨db.storePath, some table'⟩, ⟨some (dumpFile table'), fs.dirs⟩), none)

/-- The local phase of `install`, after URL resolution: a file is
decompressed into a fresh sub-store (failure raises, `DecompressionFailed`
kind), a directory is used as-is, anything else raises `InvalidPath`. -/
def installFrom (w : World) (db : DBState) (fs : FS) (path : String) (m : HMap) :
    (DBState × FS) × Option Err :=
  if w.isFile path then
    if w.localOk then finishInstall db fs w.localFresh m
    else ((db, fs), some .decompressionFailed)
  else if w.isDir path then finishInstall db fs path m
  else ((db, fs), some .invalidPath)

/-- `InstallationDatabase.install`: require `name` in the raw metadata,
convert it to a `HierarchyMapping`, resolve a URL source through the
download-and-decompress collaborator (failing with `DecompressionFailed`
when it returns `None`), then continue with the local phase. -/
def install (w : World) (db : DBState) (fs : FS) (source : String)
    (metadata : PFields) : (DBState × FS) × Option Err :=
  if (plainLookup metadata "name").isSome then
    match deserialize metadata with
    | .error e => ((db, fs), some e)
    | .ok m =>
      if isUrl source then
        if w.webOk then installFrom w db fs w.webFresh m
        else ((db, fs), some .decompressionFailed)
      else installFrom w db fs source m
  else ((db, fs), some .missingField)

/-- The `path` entry of an installed record (stamped by `install`; records
written by `install` always carry a string path). -/
def recordPath (md : HMap) : String :=
  match hmLookup md "path" with
  | some (.leaf (.s p)) => p
  | _ => ""

/-- Whether a path lies under a directory's tree: modelled from the spec:
`BinaryStore.delete` is called by `uninstall` but its definition is absent
from the sources; per the spec "the backing directory is recursively
deleted", i.e. the directory itself and everything below it. -/
def underDir (root p : String) : Bool :=
  p = root || strPrefix (root ++ "/") p

/-- Recursive deletion of a directory tree from the set of extant
directories. -/
def deleteTree (dirs : List String) (root : String) : List String :=
  dirs.filter fun p => !(underDir root p)

/-- The specification's side of the deletion guard: the claim's words
"the record's resolved path lies inside the managed store's own directory
tree" — the store directory itself or a path below it.  To be compared
with the code's `startswith` test. -/
def insideTree (store p : String) : Bool :=
  p = store || strPrefix (store ++ "/") p

/-- `InstallationDatabase.uninstall`: look the record up (loading the table
first; `KeyError` when absent), recursively delete the backing directory
when `os.path.abspath(path).startswith(os.path.abspath(store.path))`, then
remove the record and dump the table. -/
def uninstall (db : DBState) (fs : FS) (name : String) : (DBState × FS) × Option Err :=
  let table := loadTable fs.file db.table
  match tableLookup table (.leaf (.s name)) with
  | none => ((⟨db.storePath, some table⟩, fs), some .keyNotFound)
  | some md =>
    let dirs' := if strPrefix db.storePath (recordPath md)
      then deleteTree fs.dirs (recordPath md) else fs.dirs
    let table' := tableDel table (.leaf (.s name))
    ((⟨db.storePath, some table'⟩, ⟨some (dumpFile table'), dirs'⟩), none)

/-! ### Claims C3, C6, C9 -/

theorem tableLookup_set_self (k : HVal) (v : HMap) :
    ∀ t : Table, tableLookup (tableSet t k v) k = some v := by
  intro t
  induction t with
  | nil => simp [tableSet, tableLookup]
  | cons kv rest ih =>
    by_cases hk : kv.1 = k
    · simp [tableSet, tableLookup, hk]
    · simp [tableSet, tableLookup, hk, ih]

theorem installFrom_preserves_on_error (w : World) (db : DBState) (fs : FS)
    (path : String) (m : HMap) (e : Err)
    (h : (installFrom w db fs path m).2 = some e) :
    (installFrom w db fs path m).1.1.table = db.table ∧
    (installFrom w db fs path m).1.2.file = fs.file := by
  unfold installFrom finishInstall at h ⊢
  split_ifs at h ⊢ <;> simp_all

/-- C9: `install` is atomic on every failure: whenever it returns an error —
missing `name`, metadata conversion failure, download/decompression failure,
or a source that is neither URL, file nor directory — the in-memory
installed table and the persisted installations file are exactly as they
were before the call, because every failing check precedes the table
insertion and the dump. -/
theorem install_atomic_on_failure (w : World) (db : DBState) (fs : FS)
    (source : String) (metadata : PFields) (e : Err)
    (h : (install w db fs source metadata).2 = some e) :
    (install w db fs source metadata).1.1.table = db.table ∧
    (install w db fs source metadata).1.2.file = fs.file := by
  unfold install at h ⊢
  by_cases h1 : (plainLookup metadata "name").isSome
  · simp only [h1, if_true] at h ⊢
    cases hd : deserialize metadata with
    | error e' => simp [hd]
    | ok m =>
      simp only [hd] at h ⊢
      by_cases h2 : isUrl source = true
      · simp only [h2, if_true] at h ⊢
        by_cases h3 : w.webOk = true
        · simp only [h3, if_true] at h ⊢
          exact installFrom_preserves_on_error w db fs w.webFresh m e h
        · rw [if_neg h3]
          exact ⟨rfl, rfl⟩
      · simp only [h2, if_false] at h ⊢
        exact installFrom_preserves_on_error w db fs source m e h
  · simp [h1]

/-- Witness for C9: installing with metadata that lacks `name` fails with
`MissingField` and leaves the table and file untouched. -/
theorem install_atomic_on_failure_witness :
    ((install ⟨fun _ => false, fun _ => true, true, "/s/w", true, "/s/l"⟩
        ⟨"/s", none⟩ ⟨none, []⟩ "/dir" (.cons "version" (.leaf (.s "1.0")) .nil)).2
      = some .missingField) ∧
    (install ⟨fun _ => false, fun _ => true, true, "/s/w", true, "/s/l"⟩
        ⟨"/s", none⟩ ⟨none, []⟩ "/dir" (.cons "version" (.leaf (.s "1.0")) .nil)).1.1.table
      = none ∧
    (install ⟨fun _ => false, fun _ => true, true, "/s/w", true, "/s/l"⟩
        ⟨"/s", none⟩ ⟨none, []⟩ "/dir" (.cons "version" (.leaf (.s "1.0")) .nil)).1.2.file
      = none :=
  ⟨rfl,
    install_atomic_on_failure ⟨fun _ => false, fun _ => true, true, "/s/w", true, "/s/l"⟩
      ⟨"/s", none⟩ ⟨none, []⟩ "/dir" (.cons "version" (.leaf (.s "1.0")) .nil)
      .missingField rfl⟩

/-- C3: for a source beginning with an HTTP(S) scheme (and well-formed
metadata), `install` first goes through the download-and-decompress
collaborator aimed at a freshly allocated sub-store: when the collaborator
fails it fails with the `DecompressionFailed` kind; when it succeeds (the
sub-store being a directory, not a file) the record is installed with its
`path` stamped to that fresh sub-store. -/
theorem install_url_decompression (w : World) (db : DBState) (fs : FS)
    (source : String) (metadata : PFields) (m : HMap)
    (hname : (plainLookup metadata "name").isSome = true)
    (hm : deserialize metadata = .ok m)
    (hu : isUrl source = true) :
    (w.webOk = false → (install w db fs source metadata).2 = some .decompressionFailed) ∧
    (w.webOk = true → w.isFile w.webFresh = false → w.isDir w.webFresh = true →
      (install w db fs source metadata).2 = none ∧
      ∃ t', (install w db fs source metadata).1.1.table = some t' ∧
        tableLookup t'
            ((hmLookup (hmSet m "path" (.leaf (.s w.webFresh))) "name").getD (.leaf (.s "")))
          = some (hmSet m "path" (.leaf (.s w.webFresh)))) := by
  constructor
  · intro hw
    simp [install, hname, hm, hu, hw]
  · intro hw hf hd
    simp only [install, hname, if_true, hm, hu, hw, installFrom, hf, Bool.false_eq_true,
      if_false, hd, finishInstall]
    exact ⟨trivial, _, rfl, tableLookup_set_self _ _ _⟩

/-- Witness for C3 at a concrete URL install, in both collaborator
outcomes. -/
theorem install_url_decompression_witness :
    ((install ⟨fun _ => false, fun _ => true, false, "/s/w", true, "/s/l"⟩
        ⟨"/s", some []⟩ ⟨none, []⟩ "http://h/a.zip" (.cons "name" (.leaf (.s "tc")) .nil)).2
      = some .decompressionFailed) ∧
    ((install ⟨fun _ => false, fun _ => true, true, "/s/w", true, "/s/l"⟩
        ⟨"/s", some []⟩ ⟨none, []⟩ "http://h/a.zip" (.cons "name" (.leaf (.s "tc")) .nil)).2
      = none ∧
      ∃ t', (install ⟨fun _ => false, fun _ => true, true, "/s/w", true, "/s/l"⟩
          ⟨"/s", some []⟩ ⟨none, []⟩ "http://h/a.zip"
          (.cons "name" (.leaf (.s "tc")) .nil)).1.1.table = some t' ∧
        tableLookup t'
            ((hmLookup (hmSet (HMap.cons "name" (.leaf (.s "tc")) .nil) "path"
              (.leaf (.s "/s/w"))) "name").getD (.leaf (.s "")))
          = some (hmSet (HMap.cons "name" (.leaf (.s "tc")) .nil) "path"
              (.leaf (.s "/s/w")))) :=
  ⟨(install_url_decompression ⟨fun _ => false, fun _ => true, false, "/s/w", true, "/s/l"⟩
      ⟨"/s", some []⟩ ⟨none, []⟩ "http://h/a.zip" (.cons "name" (.leaf (.s "tc")) .nil)
      (HMap.cons "name" (.leaf (.s "tc")) .nil) rfl rfl rfl).1 rfl,
   (install_url_decompression ⟨fun _ => false, fun _ => true, true, "/s/w", true, "/s/l"⟩
      ⟨"/s", some []⟩ ⟨none, []⟩ "http://h/a.zip" (.cons "name" (.leaf (.s "tc")) .nil)
      (HMap.cons "name" (.leaf (.s "tc")) .nil) rfl rfl rfl).2 rfl rfl rfl⟩

/-- C6 counterexample: with the managed store at `/s` and a toolchain
installed as-is from the outside directory `/sx`, the record's path does
not lie inside the store's directory tree, yet `uninstall` recursively
deletes `/sx`, because the code's guard is a plain string `startswith`
test on the two absolute paths.  This refutes "a path outside the managed
store is left untouched". -/
theorem uninstall_outside_tree_counterexample :
    insideTree "/s" "/sx" = false ∧
    (uninstall ⟨"/s", some [(.leaf (.s "tc"),
        HMap.cons "name" (.leaf (.s "tc")) (HMap.cons "path" (.leaf (.s "/sx")) .nil))]⟩
      ⟨none, ["/sx"]⟩ "tc").1.2.dirs = [] ∧
    (uninstall ⟨"/s", some [(.leaf (.s "tc"),
        HMap.cons "name" (.leaf (.s "tc")) (HMap.cons "path" (.leaf (.s "/sx")) .nil))]⟩
      ⟨none, ["/sx"]⟩ "tc").2 = none := by
  refine ⟨by decide, rfl, rfl⟩

/-- C6 (amended): `uninstall(X)` fails with `KeyNotFound` when `X` is not
installed; otherwise it removes `X`'s record from the table and persists
the table, and the backing directory is recursively deleted exactly when
the record's absolute path extends the managed store's absolute path as a
string prefix (`startswith`) — which covers the store's own tree but also
sibling paths whose name extends the store's directory name. -/
theorem uninstall_removes_and_persists (db : DBState) (fs : FS) (name : String) :
    (tableLookup (loadTable fs.file db.table) (.leaf (.s name)) = none →
      (uninstall db fs name).2 = some .keyNotFound ∧
      (uninstall db fs name).1.2 = fs) ∧
    (∀ md, tableLookup (loadTable fs.file db.table) (.leaf (.s name)) = some md →
      (uninstall db fs name).2 = none ∧
      (uninstall db fs name).1.1.table
        = some (tableDel (loadTable fs.file db.table) (.leaf (.s name))) ∧
      (uninstall db fs name).1.2.file
        = some (dumpFile (tableDel (loadTable fs.file db.table) (.leaf (.s name)))) ∧
      (uninstall db fs name).1.2.dirs
        = if strPrefix db.storePath (recordPath md)
          then deleteTree fs.dirs (recordPath md) else fs.dirs) := by
  constructor
  · intro h
    simp [uninstall, h]
  · intro md h
    simp [uninstall, h]

/-- Witness for C6's amended theorem: a store-internal record (`/s/t` under
store `/s`) is removed with its directory deleted, and an absent name fails
with `KeyNotFound`. -/
theorem uninstall_removes_and_persists_witness :
    ((uninstall ⟨"/s", some [(.leaf (.s "tc"),
        HMap.cons "name" (.leaf (.s "tc")) (HMap.cons "path" (.leaf (.s "/s/t")) .nil))]⟩
        ⟨none, ["/s/t"]⟩ "tc").2 = none ∧
      (uninstall ⟨"/s", some [(.leaf (.s "tc"),
        HMap.cons "name" (.leaf (.s "tc")) (HMap.cons "path" (.leaf (.s "/s/t")) .nil))]⟩
        ⟨none, ["/s/t"]⟩ "tc").1.2.dirs
        = (if strPrefix "/s" (recordPath (HMap.cons "name" (.leaf (.s "tc"))
            (HMap.cons "path" (.leaf (.s "/s/t")) .nil)))
          then deleteTree ["/s/t"] (recordPath (HMap.cons "name" (.leaf (.s "tc"))
            (HMap.cons "path" (.leaf (.s "/s/t")) .nil)))
          else ["/s/t"])) ∧
    (uninstall ⟨"/s", some []⟩ ⟨none, []⟩ "zz").2 = some .keyNotFound :=
  ⟨⟨((uninstall_removes_and_persists ⟨"/s", some [(.leaf (.s "tc"),
        HMap.cons "name" (.leaf (.s "tc")) (HMap.cons "path" (.leaf (.s "/s/t")) .nil))]⟩
        ⟨none, ["/s/t"]⟩ "tc").2
      (HMap.cons "name" (.leaf (.s "tc")) (HMap.cons "path" (.leaf (.s "/s/t")) .nil))
      rfl).1,
    ((uninstall_removes_and_persists ⟨"/s", some [(.leaf (.s "tc"),
        HMap.cons "name" (.leaf (.s "tc")) (HMap.cons "path" (.leaf (.s "/s/t")) .nil))]⟩
        ⟨none, ["/s/t"]⟩ "tc").2
      (HMap.cons "name" (.leaf (.s "tc")) (HMap.cons "path" (.leaf (.s "/s/t")) .nil))
      rfl).2.2.2⟩,
   ((uninstall_removes_and_persists ⟨"/s", some []⟩ ⟨none, []⟩ "zz").1 rfl).1⟩

/-! ### The toolchain/tool registry (`toolchains/store.py`) -/

/-- A materialized tool, identified by its name (its behaviour is outside
the claims' scope). -/
structure ToolM where
  name : String
deriving DecidableEq, Repr

/-- A live toolchain: its name and its tools keyed by tool name. -/
structure ToolchainM where
  name : String
  tools : List (String × ToolM)
deriving DecidableEq, Repr

/-- Tool lookup inside one toolchain (`toolchain.items()` /
`toolchain[key]`). -/
def findTool : List (String × ToolM) → String → Option ToolM
  | [], _ => none
  | (tn, t) :: rest, toolName =>
    if tn = toolName then some t else findTool rest toolName

/-- The first loop of `get_tool`: scan each registered toolchain's tool
table for the requested name. -/
def findInRegistered : List (String × ToolchainM) → String → Option ToolM
  | [], _ => none
  | (_, tc) :: rest, toolName =>
    match findTool tc.tools toolName with
    | some t => some t
    | none => findInRegistered rest toolName

/-- The tool table `Toolchain.__init__` builds from a record: one tool per
top-level entry of the `tools` submap (`top_level` is modelled from the
spec: it is referenced by the constructor but absent from the sources; per
the spec the constructor "iterates its metadata's `tools` map").  A tool
record must be a mapping containing `path`, else `MissingField`; the tool's
name is its record's `name` entry, defaulting to its key. -/
def buildTools : HMap → Except Err (List (String × ToolM))
  | .nil => .ok []
  | .cons tn tv rest =>
    match tv with
    | .node tmd =>
      if containsItem tmd "path" then
        (buildTools rest).map fun l =>
          (tn, ⟨match hmLookup tmd "name" with
                | some (.leaf (.s s)) => s
                | _ => tn⟩) :: l
      else .error .missingField
    | .leaf _ => .error .missingField

/-- `InstallationDatabase.load` plus `Toolchain.__init__`, reduced to what
`get_tool` observes: the materialized toolchain's name and tool table (the
type dispatch selects a class but not which tools exist).  A record whose
`tools` entry is not a mapping would raise at construction and is not
reachable in the states the theorems use. -/
def loadToolchainM (md : HMap) : Except Err ToolchainM :=
  let name := match hmLookup md "name" with
    | some (.leaf (.s s)) => s
    | _ => ""
  match hmLookup md "tools" with
  | some (.node tmap) => (buildTools tmap).map fun l => ⟨name, l⟩
  | _ => .ok ⟨name, []⟩

/-- The inner loop of `get_tool`'s database scan.  The Python loop variable
`name` shadows the requested tool name (`for name, metadata in
installation_database.installed.items():`), so both the membership test
and the final lookup use the record's own key `nm`, never the requested
name; the parameter `toolName` is accordingly unused — a faithful rendering
of the source.  `some r` means the loop exited with a return or a raise.
Membership of a name in a scalar `tools` value (Python substring semantics
on strings) is outside the model: the schema types `tools` as a mapping.
`metadata['tools']` is resolved with the data-only `getItem`, which agrees
with the full `getattr` semantics because `tools` names no Python
attribute of `HierarchyMapping` instances. -/
def scanRecords (toolName : String) : Table → Option (Except Err ToolM)
  | [] => none
  | (key, md) :: rest =>
    let nm := match key with
      | .leaf (.s s) => s
      | _ => ""
    match getItem md "tools" with
    | .error e => some (.error e)
    | .ok (.node tmap) =>
      if containsItem tmap nm then
        some (match loadToolchainM md with
          | .error e => .error e
          | .ok tc =>
            match findTool tc.tools nm with
            | some t => .ok t
            | none => .error .keyNotFound)
      else scanRecords toolName rest
    | .ok (.leaf _) => scanRecords toolName rest

/-- The database loop of `get_tool`. -/
def scanDbs (toolName : String) : List Table → Except Err ToolM
  | [] => .error .keyNotFound
  | t :: rest =>
    match scanRecords toolName t with
    | some r => r
    | none => scanDbs toolName rest

/-- `get_tool`: the registered toolchains' tool tables first, then the
installation databases (registering the loaded toolchain has no effect on
the returned value and is not modelled). -/
def getTool (reg : List (String × ToolchainM)) (dbs : List Table)
    (toolName : String) : Except Err ToolM :=
  match findInRegistered reg toolName with
  | some t => .ok t
  | none => scanDbs toolName dbs

/-! ### Claim C1 -/

/-- C1: the claim fails on the code.  In `get_tool`'s database scan the
loop variable `name` shadows the requested tool name, so the scan looks for
a record whose `tools` map contains the record's own toolchain name.  With
no registered toolchains and one installed record `tc` whose `tools` map
does contain `mytool` (and no tool named `tc`), `get_tool("mytool")` raises
`KeyNotFound` instead of loading that toolchain and returning the tool;
and with a record `t` whose `tools` map contains a tool `t`,
`get_tool("other")` returns the tool named `t` — a tool that was never
requested. -/
theorem get_tool_shadowed_name_bug :
    containsItem (HMap.cons "mytool"
        (.node (HMap.cons "path" (.leaf (.s "mytool.exe")) .nil)) .nil) "mytool" = true ∧
    getTool [] [[(.leaf (.s "tc"),
        HMap.cons "name" (.leaf (.s "tc"))
          (HMap.cons "tools" (.node (HMap.cons "mytool"
            (.node (HMap.cons "path" (.leaf (.s "mytool.exe")) .nil)) .nil)) .nil))]]
      "mytool" = .error .keyNotFound ∧
    getTool [] [[(.leaf (.s "t"),
        HMap.cons "name" (.leaf (.s "t"))
          (HMap.cons "tools" (.node (HMap.cons "t"
            (.node (HMap.cons "path" (.leaf (.s "t.exe")) .nil)) .nil)) .nil))]]
      "other" = .ok ⟨"t"⟩ := by
  refine ⟨by decide, rfl, rfl⟩

end Hoverboard
